import Mathlib

/-!
Shallow embedding of the path-condition algebra (src/borrows/path_condition.rs)
and the unblock-graph builder/resolver (src/borrows/unblock_graph.rs) of the
analyzed repository.  CFG basic blocks, program locations and concrete places
are identified by natural numbers.  Rust `BTreeSet`s are embedded as sorted
lists, `HashSet`s as lists with membership-guarded insertion, panics as `none`
(or an explicit error value), and the unbounded recursion of the graph builder
is driven by an explicit fuel parameter.
-/

/-- PathCondition from path_condition.rs: a single traversed CFG edge.
The Rust field `from` is spelled `from'` here because `from` is a Lean
keyword. -/
structure PathCondition where
  from' : Nat
  to' : Nat
deriving DecidableEq

/-- Lexicographic order on path conditions mirroring the derived `Ord` of the
Rust struct (compare `from`, then `to`); this is the `BTreeSet` storage
order. -/
def PathCondition.le (a b : PathCondition) : Prop :=
  a.from' < b.from' ∨ (a.from' = b.from' ∧ a.to' ≤ b.to')

instance : DecidableRel PathCondition.le := fun _ _ => by
  unfold PathCondition.le
  exact inferInstance

/-- PCGraph from path_condition.rs: a `BTreeSet<PathCondition>`, embedded as
the sorted duplicate-free list of its elements (iteration order of the Rust
set is its sorted order). -/
structure PCGraph where
  edges : List PathCondition
deriving DecidableEq

/-- PCGraph::has_path_to_block: some recorded edge ends in `block`. -/
def PCGraph.has_path_to_block (g : PCGraph) (block : Nat) : Bool :=
  g.edges.any fun pc => pc.to' == block

/-- PCGraph::has_path_from_block: some recorded edge starts in `block`. -/
def PCGraph.has_path_from_block (g : PCGraph) (block : Nat) : Bool :=
  g.edges.any fun pc => pc.from' == block

/-- PCGraph::root: the `from` node of the first stored edge (in set order)
whose `from` node has no incoming recorded edge. -/
def PCGraph.root (g : PCGraph) : Option Nat :=
  (g.edges.find? fun pc => !(g.has_path_to_block pc.from')).map fun pc => pc.from'

/-- PCGraph::end: the `to` node of the first stored edge (in set order) whose
`to` node has no outgoing recorded edge (named `end'` because `end` is a Lean
keyword). -/
def PCGraph.end' (g : PCGraph) : Option Nat :=
  (g.edges.find? fun pc => !(g.has_path_from_block pc.to')).map fun pc => pc.to'

/-- PCGraph::singleton. -/
def PCGraph.singleton (pc : PathCondition) : PCGraph := ⟨[pc]⟩

/-- PCGraph::insert: `BTreeSet::insert`, returning the new set and whether the
element was newly added. -/
def PCGraph.insert (g : PCGraph) (pc : PathCondition) : PCGraph × Bool :=
  if pc ∈ g.edges then (g, false)
  else (⟨List.orderedInsert PathCondition.le pc g.edges⟩, true)

/-- Loop of PCGraph::join: insert each of the other set's elements, recording
whether any insertion changed the receiver. -/
def PCGraph.joinGo (g : PCGraph) (changed : Bool) : List PathCondition → PCGraph × Bool
  | [] => (g, changed)
  | pc :: rest =>
    let r := g.insert pc
    PCGraph.joinGo r.1 (changed || r.2) rest

/-- PCGraph::join. -/
def PCGraph.join (g other : PCGraph) : PCGraph × Bool :=
  g.joinGo false other.edges

/-- Iterator `position` of the Rust standard library, as used in
`has_suffix_of`: index of the first occurrence of `b`, if any. -/
def position : List Nat → Nat → Option Nat
  | [], _ => none
  | x :: rest, b => if x = b then some 0 else (position rest b).map (· + 1)

/-- Loop body of PCGraph::has_suffix_of: every consecutive pair of the
(sliced) path must be a recorded edge of the graph. -/
def PCGraph.chainOk (g : PCGraph) : List Nat → Bool
  | f :: t :: rest => decide ((⟨f, t⟩ : PathCondition) ∈ g.edges) && g.chainOk (t :: rest)
  | _ => true

/-- PCGraph::has_suffix_of.  The Rust loop bound `path.len() - 1` underflows
on an empty (sliced) path and the subsequent index access panics; that panic
is embedded as `none`. -/
def PCGraph.has_suffix_of (g : PCGraph) (path : List Nat) : Option Bool :=
  let path' :=
    match g.root with
    | some root => path.drop ((position path root).getD 0)
    | none => path
  match path' with
  | [] => none
  | _ :: _ => some (g.chainOk path')

/-- PathConditions from path_condition.rs. -/
inductive PathConditions where
  | AtBlock (b : Nat)
  | Paths (p : PCGraph)
deriving DecidableEq

/-- PathConditions::root. -/
def PathConditions.root : PathConditions → Option Nat
  | .AtBlock b => some b
  | .Paths p => p.root

/-- PathConditions::end (named `end'` because `end` is a Lean keyword). -/
def PathConditions.end' : PathConditions → Option Nat
  | .AtBlock b => some b
  | .Paths p => p.end'

/-- PathConditions::mutually_exclusive; the CFG is supplied through its
direct-predecessor map `preds` (the `blocks.predecessors()` query). -/
def PathConditions.mutually_exclusive (self other : PathConditions)
    (preds : Nat → List Nat) : Bool :=
  if self = other then false
  else
    match self.root, other.root, self.end', other.end' with
    | some r1, some r2, some e1, some e2 =>
      !((preds r1).contains e2) && !((preds r2).contains e1)
    | _, _, _, _ => false

/-- PathConditions::join; the `assert!(*b1 == *b2)` of the
`AtBlock`/`AtBlock` case is embedded as `none` on mismatch. -/
def PathConditions.join : PathConditions → PathConditions → Option (PathConditions × Bool)
  | .AtBlock b1, .AtBlock b2 => if b1 = b2 then some (.AtBlock b1, false) else none
  | .Paths p1, .Paths p2 =>
    let r := p1.join p2
    some (.Paths r.1, r.2)
  | .AtBlock b, .Paths _ => some (.AtBlock b, false)
  | .Paths p, .AtBlock _ => some (.Paths p, false)

/-- PathConditions::insert; the `assert!(*b == pc.from)` of the `AtBlock` case
is embedded as `none` on mismatch. -/
def PathConditions.insert : PathConditions → PathCondition → Option (PathConditions × Bool)
  | .AtBlock b, pc =>
    if b = pc.from' then some (.Paths (PCGraph.singleton pc), true) else none
  | .Paths p, pc =>
    let r := p.insert pc
    some (.Paths r.1, r.2)

/-- PathConditions::valid_for_path (partial: the `Paths` case panics on an
empty path, embedded as `none`). -/
def PathConditions.valid_for_path : PathConditions → List Nat → Option Bool
  | .AtBlock b, path => some (decide (path.getLast? = some b))
  | .Paths p, path => p.has_suffix_of path

/-- Discriminator for the `Paths` variant of PathConditions. -/
def PathConditions.isPaths : PathConditions → Bool
  | .AtBlock _ => false
  | .Paths _ => true

/-- Predecessor map of the CFG `b0 → b1 → b2` with the extra branch
`b0 → b3`, used in the mutual-exclusion examples. -/
def predsExample : Nat → List Nat
  | 1 => [0]
  | 2 => [1]
  | 3 => [0]
  | _ => []

/-- Membership in the graph after an insert: the inserted condition and all
previous ones are present. -/
theorem PCGraph.mem_insert (g : PCGraph) (pc e : PathCondition) :
    e ∈ (g.insert pc).1.edges ↔ e = pc ∨ e ∈ g.edges := by
  unfold PCGraph.insert
  by_cases h : pc ∈ g.edges
  · simp only [if_pos h]
    constructor
    · exact Or.inr
    · rintro (rfl | he)
      · exact h
      · exact he
  · simp only [if_neg h]
    exact List.mem_orderedInsert PathCondition.le

/-- Inserting an element that is already present changes nothing and reports
no change. -/
theorem PCGraph.insert_of_mem (g : PCGraph) (pc : PathCondition) (h : pc ∈ g.edges) :
    g.insert pc = (g, false) := by
  unfold PCGraph.insert
  simp [h]

theorem PCGraph.joinGo_mem_mono (l : List PathCondition) :
    ∀ (g : PCGraph) (c : Bool) (e : PathCondition), e ∈ g.edges →
      e ∈ (g.joinGo c l).1.edges := by
  induction l with
  | nil => intro g c e he; exact he
  | cons pc rest ih =>
    intro g c e he
    exact ih _ _ _ ((PCGraph.mem_insert g pc e).mpr (Or.inr he))

theorem PCGraph.joinGo_mem_arg (l : List PathCondition) :
    ∀ (g : PCGraph) (c : Bool) (pc : PathCondition), pc ∈ l →
      pc ∈ (g.joinGo c l).1.edges := by
  induction l with
  | nil => intro g c pc h; cases h
  | cons x rest ih =>
    intro g c pc h
    rcases List.mem_cons.mp h with rfl | h
    · exact PCGraph.joinGo_mem_mono rest _ _ _ ((PCGraph.mem_insert g pc pc).mpr (Or.inl rfl))
    · exact ih _ _ _ h

theorem PCGraph.joinGo_of_all_mem (l : List PathCondition) :
    ∀ (g : PCGraph) (c : Bool), (∀ pc ∈ l, pc ∈ g.edges) → g.joinGo c l = (g, c) := by
  induction l with
  | nil => intro g c _; rfl
  | cons x rest ih =>
    intro g c h
    have hx : x ∈ g.edges := h x (List.mem_cons_self x rest)
    show PCGraph.joinGo (g.insert x).1 (c || (g.insert x).2) rest = (g, c)
    rw [PCGraph.insert_of_mem g x hx]
    simpa using ih g c fun pc hpc => h pc (List.mem_cons_of_mem x hpc)

/-- C6: for all PCGraph values `A` and `B`, `A.join(B)` never removes an edge
present in `A` (the edge set only grows), and joining the same `B` a second
time changes nothing and reports no change (the repeated `join` returns the
unchanged graph together with `false`). -/
theorem C6_join_monotone_idempotent (A B : PCGraph) :
    (∀ e ∈ A.edges, e ∈ (A.join B).1.edges)
    ∧ (A.join B).1.join B = ((A.join B).1, false) := by
  constructor
  · intro e he
    exact PCGraph.joinGo_mem_mono B.edges A false e he
  · exact PCGraph.joinGo_of_all_mem B.edges (A.join B).1 false
      fun pc hpc => PCGraph.joinGo_mem_arg B.edges A false pc hpc

/-- Witness for C6 at concrete graphs `{b0→b1}` and `{b1→b2}`. -/
theorem C6_witness :
    (∀ e ∈ (PCGraph.singleton ⟨0, 1⟩).edges,
        e ∈ ((PCGraph.singleton ⟨0, 1⟩).join (PCGraph.singleton ⟨1, 2⟩)).1.edges)
    ∧ ((PCGraph.singleton ⟨0, 1⟩).join (PCGraph.singleton ⟨1, 2⟩)).1.join
        (PCGraph.singleton ⟨1, 2⟩)
      = (((PCGraph.singleton ⟨0, 1⟩).join (PCGraph.singleton ⟨1, 2⟩)).1, false) :=
  C6_join_monotone_idempotent (PCGraph.singleton ⟨0, 1⟩) (PCGraph.singleton ⟨1, 2⟩)

/-- C7: an `AtBlock(n)` condition accepts an insert exactly when the inserted
edge's source equals `n` (otherwise the insert asserts, embedded as `none`); a
successful insert promotes the condition to `Paths`; and once a value is in
`Paths` form, neither `insert` nor `join` (the only mutating operations) ever
returns it to `AtBlock` form. -/
theorem C7_insert_promotion :
    (∀ (b : Nat) (pc : PathCondition),
        ((PathConditions.AtBlock b).insert pc).isSome = true ↔ pc.from' = b)
    ∧ (∀ (b : Nat) (pc : PathCondition) (res : PathConditions × Bool),
        (PathConditions.AtBlock b).insert pc = some res →
          res.1 = .Paths (PCGraph.singleton pc) ∧ res.1.isPaths = true)
    ∧ (∀ (c : PathConditions) (pc : PathCondition) (res : PathConditions × Bool),
        c.isPaths = true → c.insert pc = some res → res.1.isPaths = true)
    ∧ (∀ (c other : PathConditions) (res : PathConditions × Bool),
        c.isPaths = true → c.join other = some res → res.1.isPaths = true) := by
  refine ⟨?_, ?_, ?_, ?_⟩
  · intro b pc
    unfold PathConditions.insert
    by_cases h : b = pc.from'
    · simp [h]
    · simp only [if_neg h, Option.isSome_none, Bool.false_eq_true, false_iff]
      exact fun hh => h hh.symm
  · intro b pc res h
    unfold PathConditions.insert at h
    by_cases hb : b = pc.from'
    · simp only [if_pos hb] at h
      cases h
      exact ⟨rfl, rfl⟩
    · simp [hb] at h
  · intro c pc res hc h
    cases c with
    | AtBlock b => simp [PathConditions.isPaths] at hc
    | Paths p =>
      unfold PathConditions.insert at h
      cases h
      rfl
  · intro c other res hc h
    cases c with
    | AtBlock b => simp [PathConditions.isPaths] at hc
    | Paths p =>
      cases other with
      | AtBlock b =>
        unfold PathConditions.join at h
        cases h
        rfl
      | Paths q =>
        unfold PathConditions.join at h
        cases h
        rfl

/-- Witness for C7: inserting the edge `b0→b1` into `AtBlock(b0)` succeeds and
the result is in `Paths` form. -/
theorem C7_witness :
    (PathConditions.Paths (PCGraph.singleton ⟨0, 1⟩), true).1.isPaths = true :=
  (C7_insert_promotion.2.1 0 ⟨0, 1⟩ (PathConditions.Paths (PCGraph.singleton ⟨0, 1⟩), true) rfl).2

/-- Counterexample for C8: the two-component edge set `{b0→b1, b2→b3}` has
two sources (`b0` and `b2`) and two sinks (`b1` and `b3`), so its source and
sink are not unique, yet `root()` returns `Some(b0)` and `end()` returns
`Some(b1)` instead of the `None` the claim requires. -/
theorem C8_counterexample :
    (PCGraph.mk [⟨0, 1⟩, ⟨2, 3⟩]).has_path_to_block 0 = false
    ∧ (PCGraph.mk [⟨0, 1⟩, ⟨2, 3⟩]).has_path_to_block 2 = false
    ∧ (PCGraph.mk [⟨0, 1⟩, ⟨2, 3⟩]).has_path_from_block 1 = false
    ∧ (PCGraph.mk [⟨0, 1⟩, ⟨2, 3⟩]).has_path_from_block 3 = false
    ∧ (PCGraph.mk [⟨0, 1⟩, ⟨2, 3⟩]).root = some 0
    ∧ (PCGraph.mk [⟨0, 1⟩, ⟨2, 3⟩]).end' = some 1 := by
  decide

/-- C8 (amended): `root()` returns `None` exactly when every stored edge's
source node has an incoming stored edge (in particular when the set is empty),
and symmetrically for `end()`; when `root()`/`end()` return `Some(n)`, the
node `n` is a source/sink of the stored edge set — but it need not be unique:
a multi-component set still yields `Some`. -/
theorem C8_root_end_characterization (g : PCGraph) :
    (g.root = none ↔ ∀ pc ∈ g.edges, g.has_path_to_block pc.from' = true)
    ∧ (g.end' = none ↔ ∀ pc ∈ g.edges, g.has_path_from_block pc.to' = true)
    ∧ (∀ n, g.root = some n →
        g.has_path_to_block n = false ∧ ∃ pc ∈ g.edges, pc.from' = n)
    ∧ (∀ n, g.end' = some n →
        g.has_path_from_block n = false ∧ ∃ pc ∈ g.edges, pc.to' = n) := by
  refine ⟨?_, ?_, ?_, ?_⟩
  · unfold PCGraph.root
    rw [Option.map_eq_none', List.find?_eq_none]
    constructor
    · intro h pc hpc
      have := h pc hpc
      simpa using this
    · intro h pc hpc
      simp [h pc hpc]
  · unfold PCGraph.end'
    rw [Option.map_eq_none', List.find?_eq_none]
    constructor
    · intro h pc hpc
      have := h pc hpc
      simpa using this
    · intro h pc hpc
      simp [h pc hpc]
  · intro n h
    unfold PCGraph.root at h
    rcases Option.map_eq_some'.mp h with ⟨pc, hfind, hn⟩
    have hp := List.find?_some hfind
    have hmem := List.mem_of_find?_eq_some hfind
    subst hn
    refine ⟨by simpa using hp, pc, hmem, rfl⟩
  · intro n h
    unfold PCGraph.end' at h
    rcases Option.map_eq_some'.mp h with ⟨pc, hfind, hn⟩
    have hp := List.find?_some hfind
    have hmem := List.mem_of_find?_eq_some hfind
    subst hn
    refine ⟨by simpa using hp, pc, hmem, rfl⟩

/-- Witness for C8 at the concrete single-edge set `{b0→b1}`: its root `b0`
has no incoming edge and is the source of a stored edge. -/
theorem C8_witness :
    (PCGraph.singleton ⟨0, 1⟩).has_path_to_block 0 = false
    ∧ ∃ pc ∈ (PCGraph.singleton ⟨0, 1⟩).edges, pc.from' = 0 :=
  (C8_root_end_characterization (PCGraph.singleton ⟨0, 1⟩)).2.2.1 0 rfl

theorem position_lt_length (l : List Nat) (b : Nat) :
    ∀ i, position l b = some i → i < l.length := by
  induction l with
  | nil => intro i h; cases h
  | cons x rest ih =>
    intro i h
    unfold position at h
    by_cases hx : x = b
    · simp only [if_pos hx] at h
      cases h
      simp
    · simp only [if_neg hx, Option.map_eq_some'] at h
      rcases h with ⟨j, hj, rfl⟩
      have := ih j hj
      simp only [List.length_cons]
      omega

/-- C10: `valid_for_path` is not total at the public interface: for every
condition in `Paths` form, calling it with the empty path panics (the Rust
loop bound `path.len() - 1` underflows and the subsequent index access is out
of bounds, embedded here as `none`), while for every non-empty path it
returns a boolean without failing. -/
theorem C10_valid_for_path_empty_panics (p : PCGraph) (path : List Nat) :
    (PathConditions.Paths p).valid_for_path path = none ↔ path = [] := by
  show p.has_suffix_of path = none ↔ path = []
  constructor
  · intro h
    by_contra hne
    rcases List.exists_cons_of_ne_nil hne with ⟨x, xs, rfl⟩
    unfold PCGraph.has_suffix_of at h
    rcases hroot : p.root with _ | r
    · simp only [hroot] at h
      cases h
    · simp only [hroot] at h
      rcases hpos : position (x :: xs) r with _ | i
      · simp [hpos] at h
      · have hi := position_lt_length (x :: xs) r i hpos
        have hdrop : (x :: xs).drop ((position (x :: xs) r).getD 0) ≠ [] := by
          rw [hpos]
          simp only [Option.getD_some]
          intro hd
          rw [List.drop_eq_nil_iff] at hd
          omega
        rcases List.exists_cons_of_ne_nil hdrop with ⟨y, ys, hy⟩
        rw [hy] at h
        cases h
  · rintro rfl
    unfold PCGraph.has_suffix_of
    rcases hroot : p.root with _ | r
    · simp
    · simp [position]

/-- Witness for C10: on the concrete condition `Paths {b0→b1}` the call with
the empty path panics, and with the non-empty path `[b0, b1]` it does not. -/
theorem C10_witness :
    ((PathConditions.Paths (PCGraph.singleton ⟨0, 1⟩)).valid_for_path [] = none
      ↔ ([] : List Nat) = [])
    ∧ (PathConditions.Paths (PCGraph.singleton ⟨0, 1⟩)).valid_for_path [0, 1] ≠ none :=
  ⟨C10_valid_for_path_empty_panics (PCGraph.singleton ⟨0, 1⟩) [],
   fun h => by
    cases (C10_valid_for_path_empty_panics (PCGraph.singleton ⟨0, 1⟩) [0, 1]).mp h⟩

/-- C1 (evaluation at the failing input): on the CFG `b0→b1→b2` with branch
`b0→b3`, the conditions `{b0→b1}` and `{b0→b3}` do report mutually exclusive,
as the claim expects; but the conditions `{b0→b1}` and `{b1→b2}` ALSO report
mutually exclusive (the code only tests direct-predecessor membership, and
here neither end node is a direct predecessor of the other root), although
the concrete CFG path `[b0, b1]` — a real path, since `b0` is a predecessor
of `b1` — is a suffix-match for both conditions.  This contradicts both the
claim and the function's own doc comment. -/
theorem C1_mutually_exclusive_unsound :
    (PathConditions.Paths (PCGraph.singleton ⟨0, 1⟩)).mutually_exclusive
        (.Paths (PCGraph.singleton ⟨0, 3⟩)) predsExample = true
    ∧ (PathConditions.Paths (PCGraph.singleton ⟨0, 1⟩)).mutually_exclusive
        (.Paths (PCGraph.singleton ⟨1, 2⟩)) predsExample = true
    ∧ (PathConditions.Paths (PCGraph.singleton ⟨0, 1⟩)).valid_for_path [0, 1] = some true
    ∧ (PathConditions.Paths (PCGraph.singleton ⟨1, 2⟩)).valid_for_path [0, 1] = some true
    ∧ 0 ∈ predsExample 1 := by
  decide

/-- Modelled from the spec: `MaybeOldPlace` of the missing domain module
(src/borrows/domain.rs is not part of the provided sources) — a location
denoting either the current value of a named place or a historical snapshot;
concrete places and snapshots are identified by naturals. -/
inductive MaybeOldPlace where
  | Current (place : Nat)
  | OldPlace (snapshot : Nat)
deriving DecidableEq

/-- Modelled from the spec: `MaybeRemotePlace` of the missing domain module —
a local (maybe old) place or a remote location. -/
inductive MaybeRemotePlace where
  | Local (p : MaybeOldPlace)
  | Remote (n : Nat)
deriving DecidableEq

/-- Modelled from the spec: `is_old` on `MaybeRemotePlace` — true exactly for
a local historical snapshot. -/
def MaybeRemotePlace.is_old : MaybeRemotePlace → Bool
  | .Local (.OldPlace _) => true
  | _ => false

/-- Modelled from the spec: `Reborrow` of the missing domain module — a
blocked place whose access right is re-granted to an assigned place, with a
mutability flag (`true` = mutable) and the program point where the re-grant
was reserved. -/
structure Reborrow where
  blocked_place : MaybeRemotePlace
  assigned_place : MaybeOldPlace
  mutability : Bool
  reserve_location : Nat
deriving DecidableEq

/-- Modelled from the spec: a structural-expansion (deref expansion) edge of
the missing borrows_edge module — a base aggregate place split into its
constituent sub-places; the constituent list the external repacker would
compute is recorded in the edge. -/
structure DerefExpansion where
  base : MaybeOldPlace
  expansion : List MaybeOldPlace
deriving DecidableEq

/-- Modelled from the spec: an abstraction edge of the missing
region_abstraction module — an abstract region value at a program point,
recording the concrete locations that block it (`blocker_places`) and the
locations it blocks (`blocked_places`). -/
structure AbstractionEdge where
  location : Nat
  blocker_places : List MaybeOldPlace
  blocked_places : List MaybeRemotePlace
deriving DecidableEq

/-- Modelled from the spec: a region-projection-membership edge — a
finer-grained relation between an abstract region and a concrete location,
never resolved by the peeling algorithm. -/
structure RegionProjectionMember where
  region : Nat
  place : MaybeRemotePlace
deriving DecidableEq

/-- Modelled from the spec: `BorrowsEdgeKind` of the missing borrows_edge
module, with the four blocking-edge variants. -/
inductive BorrowsEdgeKind where
  | Reborrow (r : Reborrow)
  | DerefExpansion (d : DerefExpansion)
  | Abstraction (a : AbstractionEdge)
  | RegionProjectionMember (m : RegionProjectionMember)
deriving DecidableEq

/-- Modelled from the spec: `BorrowsEdge` — an edge kind together with the
path conditions under which the relation holds. -/
structure BorrowsEdge where
  conditions : PathConditions
  kind : BorrowsEdgeKind
deriving DecidableEq

/-- Modelled from the spec: `blocks_place` on an edge — whether the given
(maybe old) place is blocked by this edge. -/
def BorrowsEdge.blocks_place (e : BorrowsEdge) (node : MaybeOldPlace) : Bool :=
  match e.kind with
  | .Reborrow r => r.blocked_place == .Local node
  | .DerefExpansion d => d.base == node
  | .Abstraction a => a.blocked_places.contains (.Local node)
  | .RegionProjectionMember m => m.place == .Local node

/-- BorrowsEdge::valid_for_path, as used by `filter_for_path`. -/
def BorrowsEdge.valid_for_path (e : BorrowsEdge) (path : List Nat) : Option Bool :=
  e.conditions.valid_for_path path

/-- UnblockAction from the combined_pcs module (declared outside the provided
sources; modelled from its uses in unblock_graph.rs `actions`). -/
inductive UnblockAction where
  | TerminateReborrow (blocked_place : MaybeRemotePlace) (assigned_place : MaybeOldPlace)
      (reserve_location : Nat) (is_mut : Bool)
  | Collapse (base : MaybeOldPlace) (expansion : List MaybeOldPlace)
  | TerminateAbstraction (location : Nat) (a : AbstractionEdge)
deriving DecidableEq

/-- The `is_leaf` closure of UnblockGraph::actions: a place is a leaf iff no
edge of the working set blocks it. -/
def is_leaf (edges : List BorrowsEdge) (node : MaybeOldPlace) : Bool :=
  edges.all fun e => !(e.blocks_place node)

/-- Resolvability of one edge in one pass of UnblockGraph::actions, with the
leaf tests of the pass evaluated against the pass-start working set: a
reborrow is resolvable iff its assigned place is a leaf, an expansion iff all
its sub-places are leaves, an abstraction iff all its blocker places are
leaves (the `is_leaf_abstraction` closure), and a region-projection-membership
edge never (the `_ => {}` arm of the match). -/
def resolvable (edges : List BorrowsEdge) (e : BorrowsEdge) : Bool :=
  match e.kind with
  | .Reborrow r => is_leaf edges r.assigned_place
  | .DerefExpansion d => d.expansion.all (is_leaf edges)
  | .Abstraction a => a.blocker_places.all (is_leaf edges)
  | .RegionProjectionMember _ => false

/-- The action a resolvable edge emits in UnblockGraph::actions (none for a
region-projection-membership edge, which is never resolved). -/
def actionOf (e : BorrowsEdge) : Option UnblockAction :=
  match e.kind with
  | .Reborrow r =>
    some (.TerminateReborrow r.blocked_place r.assigned_place r.reserve_location r.mutability)
  | .DerefExpansion d => some (.Collapse d.base d.expansion)
  | .Abstraction a => some (.TerminateAbstraction a.location a)
  | .RegionProjectionMember _ => none

/-- The `push_action` closure of UnblockGraph::actions: append the action
unless an equal action is already present (duplicate suppression). -/
def push_action (acts : List UnblockAction) (a : UnblockAction) : List UnblockAction :=
  if a ∈ acts then acts else acts ++ [a]

/-- One edge of one pass of UnblockGraph::actions: emit the edge's action if
the edge is resolvable against the pass-start working set `edges`. -/
def pass_action_step (edges : List BorrowsEdge) (acc : List UnblockAction)
    (e : BorrowsEdge) : List UnblockAction :=
  match actionOf e with
  | some a => if resolvable edges e then push_action acc a else acc
  | none => acc

/-- The actions emitted while iterating `l` in one pass of
UnblockGraph::actions, with leaf tests against the pass-start set `edges`. -/
def passActionsAux (edges : List BorrowsEdge) (acc : List UnblockAction) :
    List BorrowsEdge → List UnblockAction
  | [] => acc
  | e :: rest => passActionsAux edges (pass_action_step edges acc e) rest

/-- All actions emitted by one full pass of UnblockGraph::actions. -/
def passActions (edges : List BorrowsEdge) (acc : List UnblockAction) : List UnblockAction :=
  passActionsAux edges acc edges

/-- The peeling loop of UnblockGraph::actions.  Each pass keeps exactly the
unresolvable edges and emits the actions of the resolvable ones; the
`assert!(to_keep.len() < edges.len())` panic on a pass that removes nothing
is embedded as `none`.  The structural fuel argument only bounds the number
of passes; `UnblockGraph.actions` supplies `edges.length`, which is always
enough because every continuing pass strictly shrinks the working set.
`onePassKeep` is the `to_keep` set left by one pass: exactly the edges that
were not resolvable against the pass-start working set. -/
def onePassKeep (edges : List BorrowsEdge) : List BorrowsEdge :=
  edges.filter fun x => !(resolvable edges x)

def actionsGo : Nat → List BorrowsEdge → List UnblockAction → Option (List UnblockAction)
  | _, [], acc => some acc
  | 0, _ :: _, _ => none
  | fuel + 1, e :: rest, acc =>
    if (onePassKeep (e :: rest)).length < (e :: rest).length
    then actionsGo fuel (onePassKeep (e :: rest)) (passActions (e :: rest) acc)
    else none

/-- UnblockGraph::actions: resolve the accumulated edge set into the ordered
action sequence (the `HashSet` of edges is embedded as a list, whose order
stands for the set's iteration order). -/
def UnblockGraph.actions (edges : List BorrowsEdge) : Option (List UnblockAction) :=
  actionsGo edges.length edges []

/-- UnblockGraph::filter_for_path: retain exactly the edges whose conditions
hold on the concrete path; a panic of `valid_for_path` propagates. -/
def UnblockGraph.filter_for_path : List BorrowsEdge → List Nat → Option (List BorrowsEdge)
  | [], _ => some []
  | e :: rest, path =>
    match e.valid_for_path path with
    | none => none
    | some b =>
      match UnblockGraph.filter_for_path rest path with
      | none => none
      | some tail => some (if b then e :: tail else tail)

/-- The places whose leaf status gates the resolution of an edge (empty for a
region-projection-membership edge, which is never resolvable). -/
def upstream (e : BorrowsEdge) : List MaybeOldPlace :=
  match e.kind with
  | .Reborrow r => [r.assigned_place]
  | .DerefExpansion d => d.expansion
  | .Abstraction a => a.blocker_places
  | .RegionProjectionMember _ => []

/-- Edge `e1` waits on nothing from `e2`…; `waitsOn e1 e2` holds when `e1`
blocks one of the places whose leaf status `e2`'s resolution requires, so
`e2` cannot be peeled while `e1` remains. -/
def waitsOn (e1 e2 : BorrowsEdge) : Prop :=
  ∃ node ∈ upstream e2, e1.blocks_place node = true

instance (e1 e2 : BorrowsEdge) : Decidable (waitsOn e1 e2) := by
  unfold waitsOn
  exact List.decidableBEx _ _

/-- Acyclicity of the blocking structure of an edge set: every nonempty
sub-collection contains an edge that no edge of the sub-collection waits on
(the finite-set characterization of the `waitsOn` relation having no
cycle). -/
def Acyclic (edges : List BorrowsEdge) : Prop :=
  ∀ l ∈ edges.sublists, l ≠ [] → ∃ e ∈ l, ∀ e' ∈ l, ¬ waitsOn e' e

instance (edges : List BorrowsEdge) : Decidable (Acyclic edges) := by
  unfold Acyclic
  exact inferInstance

/-- Discriminator for region-projection-membership edges. -/
def BorrowsEdgeKind.isRegionProjectionMember : BorrowsEdgeKind → Bool
  | .RegionProjectionMember _ => true
  | _ => false

theorem mem_push_action (acc : List UnblockAction) (b a : UnblockAction) :
    a ∈ push_action acc b ↔ a ∈ acc ∨ a = b := by
  unfold push_action
  by_cases h : b ∈ acc
  · simp only [if_pos h]
    constructor
    · exact Or.inl
    · rintro (ha | rfl)
      · exact ha
      · exact h
  · simp [if_neg h]

theorem nodup_push_action (acc : List UnblockAction) (b : UnblockAction)
    (h : acc.Nodup) : (push_action acc b).Nodup := by
  unfold push_action
  by_cases hb : b ∈ acc
  · simpa [if_pos hb]
  · simp only [if_neg hb]
    exact List.Nodup.append h (List.nodup_singleton b)
      (fun a ha hb' => hb (by rwa [List.mem_singleton.mp hb'] at ha))

theorem ext_push_action (acc : List UnblockAction) (b : UnblockAction) :
    ∃ t, push_action acc b = acc ++ t := by
  unfold push_action
  by_cases hb : b ∈ acc
  · exact ⟨[], by simp [if_pos hb]⟩
  · exact ⟨[b], by simp [if_neg hb]⟩

theorem mem_pass_action_step (edges : List BorrowsEdge) (acc : List UnblockAction)
    (e : BorrowsEdge) (a : UnblockAction) :
    a ∈ pass_action_step edges acc e
      ↔ a ∈ acc ∨ (resolvable edges e = true ∧ actionOf e = some a) := by
  rcases hact : actionOf e with _ | b
  · simp [pass_action_step, hact]
  · simp only [pass_action_step, hact]
    by_cases hr : resolvable edges e
    · rw [if_pos hr, mem_push_action]
      constructor
      · rintro (ha | rfl)
        · exact Or.inl ha
        · exact Or.inr ⟨hr, rfl⟩
      · rintro (ha | ⟨_, hb⟩)
        · exact Or.inl ha
        · exact Or.inr (Option.some.inj hb).symm
    · simp only [if_neg hr]
      constructor
      · exact Or.inl
      · rintro (ha | ⟨hr', _⟩)
        · exact ha
        · exact absurd hr' hr

theorem nodup_pass_action_step (edges : List BorrowsEdge) (acc : List UnblockAction)
    (e : BorrowsEdge) (h : acc.Nodup) : (pass_action_step edges acc e).Nodup := by
  rcases hact : actionOf e with _ | b
  · simpa [pass_action_step, hact]
  · simp only [pass_action_step, hact]
    by_cases hr : resolvable edges e
    · rw [if_pos hr]; exact nodup_push_action acc b h
    · rwa [if_neg hr]

theorem ext_pass_action_step (edges : List BorrowsEdge) (acc : List UnblockAction)
    (e : BorrowsEdge) : ∃ t, pass_action_step edges acc e = acc ++ t := by
  rcases hact : actionOf e with _ | b
  · exact ⟨[], by simp [pass_action_step, hact]⟩
  · simp only [pass_action_step, hact]
    by_cases hr : resolvable edges e
    · rw [if_pos hr]; exact ext_push_action acc b
    · exact ⟨[], by simp [if_neg hr]⟩

theorem mem_passActionsAux (edges : List BorrowsEdge) (l : List BorrowsEdge) :
    ∀ (acc : List UnblockAction) (a : UnblockAction),
      a ∈ passActionsAux edges acc l
        ↔ a ∈ acc ∨ ∃ e ∈ l, resolvable edges e = true ∧ actionOf e = some a := by
  induction l with
  | nil => intro acc a; simp [passActionsAux]
  | cons e rest ih =>
    intro acc a
    show a ∈ passActionsAux edges (pass_action_step edges acc e) rest ↔ _
    rw [ih, mem_pass_action_step]
    constructor
    · rintro ((ha | ⟨hr, hact⟩) | ⟨e', he', hr', hact'⟩)
      · exact Or.inl ha
      · exact Or.inr ⟨e, List.mem_cons_self e rest, hr, hact⟩
      · exact Or.inr ⟨e', List.mem_cons_of_mem e he', hr', hact'⟩
    · rintro (ha | ⟨e', he', hr', hact'⟩)
      · exact Or.inl (Or.inl ha)
      · rcases List.mem_cons.mp he' with rfl | he''
        · exact Or.inl (Or.inr ⟨hr', hact'⟩)
        · exact Or.inr ⟨e', he'', hr', hact'⟩

theorem nodup_passActionsAux (edges : List BorrowsEdge) (l : List BorrowsEdge) :
    ∀ acc : List UnblockAction, acc.Nodup → (passActionsAux edges acc l).Nodup := by
  induction l with
  | nil => intro acc h; exact h
  | cons e rest ih =>
    intro acc h
    exact ih _ (nodup_pass_action_step edges acc e h)

theorem ext_passActionsAux (edges : List BorrowsEdge) (l : List BorrowsEdge) :
    ∀ acc : List UnblockAction, ∃ t, passActionsAux edges acc l = acc ++ t := by
  induction l with
  | nil => intro acc; exact ⟨[], by simp [passActionsAux]⟩
  | cons e rest ih =>
    intro acc
    obtain ⟨t1, ht1⟩ := ext_pass_action_step edges acc e
    obtain ⟨t2, ht2⟩ := ih (pass_action_step edges acc e)
    exact ⟨t1 ++ t2, by
      show passActionsAux edges (pass_action_step edges acc e) rest = _
      rw [ht2, ht1, List.append_assoc]⟩

theorem mem_passActions (edges : List BorrowsEdge) (acc : List UnblockAction)
    (a : UnblockAction) :
    a ∈ passActions edges acc
      ↔ a ∈ acc ∨ ∃ e ∈ edges, resolvable edges e = true ∧ actionOf e = some a :=
  mem_passActionsAux edges edges acc a

theorem nodup_passActions (edges : List BorrowsEdge) (acc : List UnblockAction)
    (h : acc.Nodup) : (passActions edges acc).Nodup :=
  nodup_passActionsAux edges edges acc h

theorem ext_passActions (edges : List BorrowsEdge) (acc : List UnblockAction) :
    ∃ t, passActions edges acc = acc ++ t :=
  ext_passActionsAux edges edges acc

theorem mem_onePassKeep (edges : List BorrowsEdge) (e : BorrowsEdge) :
    e ∈ onePassKeep edges ↔ e ∈ edges ∧ resolvable edges e = false := by
  unfold onePassKeep
  rw [List.mem_filter]
  simp [Bool.not_eq_true']

theorem all_leaf_iff (edges : List BorrowsEdge) (l : List MaybeOldPlace) :
    (l.all (is_leaf edges) = true)
      ↔ ∀ e' ∈ edges, ¬ ∃ node ∈ l, e'.blocks_place node = true := by
  simp only [List.all_eq_true, is_leaf, Bool.not_eq_true']
  constructor
  · rintro h e' he' ⟨node, hn, hb⟩
    rw [h node hn e' he'] at hb
    cases hb
  · intro h node hn e' he'
    by_contra hb
    rw [Bool.not_eq_false] at hb
    exact h e' he' ⟨node, hn, hb⟩

/-- For the three resolvable edge kinds, resolvability against a working set
is exactly the absence of any edge of the set that blocks one of the places
the edge's resolution requires. -/
theorem resolvable_iff (edges : List BorrowsEdge) (e : BorrowsEdge)
    (hrpm : e.kind.isRegionProjectionMember = false) :
    resolvable edges e = true ↔ ∀ e' ∈ edges, ¬ waitsOn e' e := by
  obtain ⟨c, k⟩ := e
  cases k with
  | Reborrow r =>
    have hsingle : is_leaf edges r.assigned_place = [r.assigned_place].all (is_leaf edges) := by
      simp
    show is_leaf edges r.assigned_place = true ↔ _
    rw [hsingle, all_leaf_iff]
    simp [waitsOn, upstream]
  | DerefExpansion d =>
    show d.expansion.all (is_leaf edges) = true ↔ _
    rw [all_leaf_iff]
    simp [waitsOn, upstream]
  | Abstraction a =>
    show a.blocker_places.all (is_leaf edges) = true ↔ _
    rw [all_leaf_iff]
    simp [waitsOn, upstream]
  | RegionProjectionMember m =>
    cases hrpm

theorem length_filter_lt_of_mem {p : BorrowsEdge → Bool} {l : List BorrowsEdge}
    {x : BorrowsEdge} (hx : x ∈ l) (hpx : p x = false) :
    (l.filter p).length < l.length := by
  have hsub : List.Sublist (l.filter p) l := List.filter_sublist l
  rcases Nat.lt_or_ge (l.filter p).length l.length with h | h
  · exact h
  · exfalso
    have heq : l.filter p = l :=
      hsub.eq_of_length (Nat.le_antisymm hsub.length_le h)
    have : x ∈ l.filter p := by rw [heq]; exact hx
    rw [List.mem_filter, hpx] at this
    exact Bool.false_ne_true this.2

theorem actionsGo_mem : ∀ (fuel : Nat) (edges : List BorrowsEdge)
    (acc acts : List UnblockAction), actionsGo fuel edges acc = some acts →
    ∀ a, a ∈ acts ↔ a ∈ acc ∨ ∃ e ∈ edges, actionOf e = some a := by
  intro fuel
  induction fuel with
  | zero =>
    intro edges acc acts h a
    cases edges with
    | nil => cases h; simp
    | cons e rest => cases h
  | succ fuel ih =>
    intro edges acc acts h a
    cases edges with
    | nil => cases h; simp
    | cons e0 rest =>
      simp only [actionsGo] at h
      by_cases hlt : (onePassKeep (e0 :: rest)).length < (e0 :: rest).length
      · rw [if_pos hlt] at h
        rw [ih _ _ _ h a, mem_passActions]
        constructor
        · rintro ((ha | ⟨e, he, _, hact⟩) | ⟨e, he, hact⟩)
          · exact Or.inl ha
          · exact Or.inr ⟨e, he, hact⟩
          · exact Or.inr ⟨e, ((mem_onePassKeep _ e).mp he).1, hact⟩
        · rintro (ha | ⟨e, he, hact⟩)
          · exact Or.inl (Or.inl ha)
          · rcases hres : resolvable (e0 :: rest) e with _ | _
            · exact Or.inr ⟨e, (mem_onePassKeep _ e).mpr ⟨he, hres⟩, hact⟩
            · exact Or.inl (Or.inr ⟨e, he, hres, hact⟩)
      · rw [if_neg hlt] at h
        cases h

theorem actionsGo_nodup : ∀ (fuel : Nat) (edges : List BorrowsEdge)
    (acc acts : List UnblockAction), actionsGo fuel edges acc = some acts →
    acc.Nodup → acts.Nodup := by
  intro fuel
  induction fuel with
  | zero =>
    intro edges acc acts h hn
    cases edges with
    | nil => cases h; exact hn
    | cons e rest => cases h
  | succ fuel ih =>
    intro edges acc acts h hn
    cases edges with
    | nil => cases h; exact hn
    | cons e0 rest =>
      simp only [actionsGo] at h
      by_cases hlt : (onePassKeep (e0 :: rest)).length < (e0 :: rest).length
      · rw [if_pos hlt] at h
        exact ih _ _ _ h (nodup_passActions _ _ hn)
      · rw [if_neg hlt] at h
        cases h

theorem actionsGo_ext : ∀ (fuel : Nat) (edges : List BorrowsEdge)
    (acc acts : List UnblockAction), actionsGo fuel edges acc = some acts →
    ∃ t, acts = acc ++ t := by
  intro fuel
  induction fuel with
  | zero =>
    intro edges acc acts h
    cases edges with
    | nil => cases h; exact ⟨[], by simp⟩
    | cons e rest => cases h
  | succ fuel ih =>
    intro edges acc acts h
    cases edges with
    | nil => cases h; exact ⟨[], by simp⟩
    | cons e0 rest =>
      simp only [actionsGo] at h
      by_cases hlt : (onePassKeep (e0 :: rest)).length < (e0 :: rest).length
      · rw [if_pos hlt] at h
        obtain ⟨t2, ht2⟩ := ih _ _ _ h
        obtain ⟨t1, ht1⟩ := ext_passActions (e0 :: rest) acc
        exact ⟨t1 ++ t2, by rw [ht2, ht1, List.append_assoc]⟩
      · rw [if_neg hlt] at h
        cases h

theorem actionsGo_success : ∀ (fuel : Nat) (edges : List BorrowsEdge)
    (acc : List UnblockAction), edges.length ≤ fuel →
    (∀ e ∈ edges, e.kind.isRegionProjectionMember = false) →
    Acyclic edges →
    ∃ acts, actionsGo fuel edges acc = some acts := by
  intro fuel
  induction fuel with
  | zero =>
    intro edges acc hlen _ _
    cases edges with
    | nil => exact ⟨acc, rfl⟩
    | cons e rest => simp at hlen
  | succ fuel ih =>
    intro edges acc hlen hrpm hacyc
    cases edges with
    | nil => exact ⟨acc, rfl⟩
    | cons e0 rest =>
      obtain ⟨emin, hmem, hmin⟩ :=
        hacyc (e0 :: rest) (List.mem_sublists.mpr (List.Sublist.refl _)) (by simp)
      have hres : resolvable (e0 :: rest) emin = true :=
        (resolvable_iff _ emin (hrpm emin hmem)).mpr hmin
      have hlt : (onePassKeep (e0 :: rest)).length < (e0 :: rest).length :=
        length_filter_lt_of_mem hmem (by simp [hres])
      have hsubkeep : List.Sublist (onePassKeep (e0 :: rest)) (e0 :: rest) :=
        List.filter_sublist _
      obtain ⟨acts, hacts⟩ := ih (onePassKeep (e0 :: rest)) (passActions (e0 :: rest) acc)
        (by have := hlen; simp only [List.length_cons] at this; omega)
        (fun e he => hrpm e (hsubkeep.mem he))
        (fun l hl hne => hacyc l
          (List.mem_sublists.mpr ((List.mem_sublists.mp hl).trans hsubkeep)) hne)
      refine ⟨acts, ?_⟩
      simp only [actionsGo]
      rw [if_pos hlt]
      exact hacts

/-- C2 (amended): for every finite, acyclic set of blocking edges containing
no region-projection-membership edges, the resolver succeeds with its working
edge set fully drained (returning `some` happens only once the working set is
empty), and the returned action sequence contains exactly one action per
distinct release requirement: it is duplicate-free and holds precisely the
actions of the given edges. -/
theorem C2_actions_complete (edges : List BorrowsEdge)
    (hrpm : ∀ e ∈ edges, e.kind.isRegionProjectionMember = false)
    (hacyc : Acyclic edges) :
    ∃ acts, UnblockGraph.actions edges = some acts ∧ acts.Nodup
      ∧ ∀ a, a ∈ acts ↔ ∃ e ∈ edges, actionOf e = some a := by
  obtain ⟨acts, hacts⟩ := actionsGo_success edges.length edges [] (Nat.le_refl _) hrpm hacyc
  refine ⟨acts, hacts, actionsGo_nodup _ _ _ _ hacts List.nodup_nil, fun a => ?_⟩
  rw [actionsGo_mem _ _ _ _ hacts a]
  simp

/-- A region-projection-membership edge, as accepted by the graph model. -/
def rpmEdge : BorrowsEdge :=
  ⟨.AtBlock 0, .RegionProjectionMember ⟨0, .Local (.Current 0)⟩⟩

/-- Counterexample for C2: the singleton edge set holding one
region-projection-membership edge is finite and acyclic (nothing waits on
anything), yet the resolver panics on it — the first pass removes nothing, so
the `assert!` fires (embedded as `none`) and the edge set is never drained and
no action sequence is returned. -/
theorem C2_counterexample :
    Acyclic [rpmEdge] ∧ UnblockGraph.actions [rpmEdge] = none := by
  constructor
  · decide
  · rfl

/-- Reborrow `r1` of the resolution-ordering example: `place 1` re-granted to
`place 2`. -/
def rW1 : Reborrow :=
  { blocked_place := .Local (.Current 1), assigned_place := .Current 2,
    mutability := true, reserve_location := 0 }

/-- Reborrow `r2` of the resolution-ordering example: `place 2` (the assigned
place of `r1`) re-granted to `place 3`, so `r2` blocks `r1`'s assigned
place. -/
def rW2 : Reborrow :=
  { blocked_place := .Local (.Current 2), assigned_place := .Current 3,
    mutability := true, reserve_location := 1 }

/-- The edge carrying reborrow `r1`. -/
def eW1 : BorrowsEdge := ⟨.AtBlock 0, .Reborrow rW1⟩

/-- The edge carrying reborrow `r2`. -/
def eW2 : BorrowsEdge := ⟨.AtBlock 0, .Reborrow rW2⟩

/-- Witness for C2 on the concrete acyclic two-reborrow graph. -/
theorem C2_witness :
    ∃ acts, UnblockGraph.actions [eW1, eW2] = some acts ∧ acts.Nodup
      ∧ ∀ a, a ∈ acts ↔ ∃ e ∈ [eW1, eW2], actionOf e = some a :=
  C2_actions_complete [eW1, eW2] (by decide) (by decide)

/-- The termination action emitted for a reborrow edge. -/
def reborrowAction (r : Reborrow) : UnblockAction :=
  .TerminateReborrow r.blocked_place r.assigned_place r.reserve_location r.mutability

theorem actionOf_of_kind_reborrow (e : BorrowsEdge) (r : Reborrow)
    (h : e.kind = .Reborrow r) : actionOf e = some (reborrowAction r) := by
  obtain ⟨c, k⟩ := e
  dsimp only at h
  subst h
  rfl

theorem kind_reborrow_of_actionOf (e : BorrowsEdge) (r : Reborrow)
    (h : actionOf e = some (reborrowAction r)) : e.kind = .Reborrow r := by
  obtain ⟨c, k⟩ := e
  cases k with
  | Reborrow r' =>
    obtain ⟨b1, a1, m1, l1⟩ := r'
    obtain ⟨b2, a2, m2, l2⟩ := r
    simp only [actionOf, reborrowAction, Option.some.injEq,
      UnblockAction.TerminateReborrow.injEq] at h
    obtain ⟨h1, h2, h3, h4⟩ := h
    subst h1; subst h2; subst h3; subst h4
    rfl
  | DerefExpansion d => simp [actionOf, reborrowAction] at h
  | Abstraction a => simp [actionOf, reborrowAction] at h
  | RegionProjectionMember m => simp [actionOf] at h

theorem blocks_of_kind_reborrow (e : BorrowsEdge) (r : Reborrow) (n : MaybeOldPlace)
    (hk : e.kind = .Reborrow r) (hb : r.blocked_place = .Local n) :
    e.blocks_place n = true := by
  obtain ⟨c, k⟩ := e
  dsimp only at hk
  subst hk
  simp [BorrowsEdge.blocks_place, hb]

theorem resolvable_false_of_blocked (edges : List BorrowsEdge) (e eb : BorrowsEdge)
    (r : Reborrow) (hk : e.kind = .Reborrow r) (hebm : eb ∈ edges)
    (hbl : eb.blocks_place r.assigned_place = true) :
    resolvable edges e = false := by
  obtain ⟨c, k⟩ := e
  dsimp only at hk
  subst hk
  show is_leaf edges r.assigned_place = false
  by_contra h
  rw [Bool.not_eq_false] at h
  have := List.all_eq_true.mp h eb hebm
  rw [hbl] at this
  cases this

theorem C5aux (r1 r2 : Reborrow)
    (hblock : r2.blocked_place = .Local r1.assigned_place) :
    ∀ (fuel : Nat) (edges : List BorrowsEdge) (acc acts : List UnblockAction),
    actionsGo fuel edges acc = some acts →
    (∃ e ∈ edges, e.kind = .Reborrow r1) →
    (∃ e ∈ edges, e.kind = .Reborrow r2) →
    reborrowAction r1 ∉ acc →
    List.Sublist [reborrowAction r2, reborrowAction r1] acts := by
  intro fuel
  induction fuel with
  | zero =>
    intro edges acc acts h he1 _ _
    rcases he1 with ⟨e, he, _⟩
    cases edges with
    | nil => cases he
    | cons e0 rest => cases h
  | succ fuel ih =>
    intro edges acc acts h he1 he2 ha1
    cases edges with
    | nil =>
      rcases he1 with ⟨e, he, _⟩
      cases he
    | cons e0 rest =>
      simp only [actionsGo] at h
      by_cases hlt : (onePassKeep (e0 :: rest)).length < (e0 :: rest).length
      · rw [if_pos hlt] at h
        rcases he2 with ⟨e2, he2E, hk2⟩
        have hnotres : ∀ e ∈ e0 :: rest, e.kind = .Reborrow r1 →
            resolvable (e0 :: rest) e = false := fun e _ hk =>
          resolvable_false_of_blocked _ e e2 r1 hk he2E
            (blocks_of_kind_reborrow e2 r2 _ hk2 hblock)
        have ha1' : reborrowAction r1 ∉ passActions (e0 :: rest) acc := by
          intro hmem
          rcases (mem_passActions _ _ _).mp hmem with hacc | ⟨e, heE, hres, hact⟩
          · exact ha1 hacc
          · have hke := kind_reborrow_of_actionOf e r1 hact
            rw [hnotres e heE hke] at hres
            cases hres
        rcases he1 with ⟨e1, he1E, hk1⟩
        have hkeep1 : e1 ∈ onePassKeep (e0 :: rest) :=
          (mem_onePassKeep _ e1).mpr ⟨he1E, hnotres e1 he1E hk1⟩
        by_cases hkeep2 : ∃ e ∈ onePassKeep (e0 :: rest), e.kind = .Reborrow r2
        · exact ih _ _ _ h ⟨e1, hkeep1, hk1⟩ hkeep2 ha1'
        · have hres2 : resolvable (e0 :: rest) e2 = true := by
            rcases hr : resolvable (e0 :: rest) e2 with _ | _
            · exact absurd ⟨e2, (mem_onePassKeep _ e2).mpr ⟨he2E, hr⟩, hk2⟩ hkeep2
            · rfl
          have ha2' : reborrowAction r2 ∈ passActions (e0 :: rest) acc :=
            (mem_passActions _ _ _).mpr
              (Or.inr ⟨e2, he2E, hres2, actionOf_of_kind_reborrow e2 r2 hk2⟩)
          have ha1acts : reborrowAction r1 ∈ acts :=
            (actionsGo_mem _ _ _ _ h _).mpr
              (Or.inr ⟨e1, hkeep1, actionOf_of_kind_reborrow e1 r1 hk1⟩)
          obtain ⟨t, ht⟩ := actionsGo_ext _ _ _ _ h
          have ha1t : reborrowAction r1 ∈ t := by
            rw [ht] at ha1acts
            rcases List.mem_append.mp ha1acts with hl | hr
            · exact absurd hl ha1'
            · exact hr
          rw [ht]
          exact List.Sublist.append (List.singleton_sublist.mpr ha2')
            (List.singleton_sublist.mpr ha1t)
      · rw [if_neg hlt] at h
        cases h

/-- C5: whenever the edge set holds a reborrow edge `r1` whose assigned
location is the blocked (target) location of a second reborrow edge `r2`, a
successful resolution places the termination action of `r2` strictly before
the termination action of `r1` in the output sequence ([act r2, act r1] is a
sublist of the result). -/
theorem C5_reborrow_termination_order (edges : List BorrowsEdge)
    (e1 e2 : BorrowsEdge) (r1 r2 : Reborrow) (acts : List UnblockAction)
    (h1 : e1 ∈ edges) (hk1 : e1.kind = .Reborrow r1)
    (h2 : e2 ∈ edges) (hk2 : e2.kind = .Reborrow r2)
    (hblock : r2.blocked_place = .Local r1.assigned_place)
    (hacts : UnblockGraph.actions edges = some acts) :
    List.Sublist [reborrowAction r2, reborrowAction r1] acts :=
  C5aux r1 r2 hblock edges.length edges [] acts hacts
    ⟨e1, h1, hk1⟩ ⟨e2, h2, hk2⟩ (List.not_mem_nil _)

/-- Witness for C5 on the concrete two-reborrow graph: the resolver emits
`[act r2, act r1]` and the ordering theorem applies to it. -/
theorem C5_witness :
    List.Sublist [reborrowAction rW2, reborrowAction rW1]
      [reborrowAction rW2, reborrowAction rW1] :=
  C5_reborrow_termination_order [eW1, eW2] eW1 eW2 rW1 rW2
    [reborrowAction rW2, reborrowAction rW1]
    (by decide) rfl (by decide) rfl (by decide) (by decide)

/-- An edge of the path-filtering example, carrying the given path condition
as a materialized `Paths` condition (the edge kind is immaterial to
filtering). -/
def pathEdge (pc : PathCondition) : BorrowsEdge :=
  ⟨.Paths (PCGraph.singleton pc), .Reborrow ⟨.Local (.Current 0), .Current 1, true, 0⟩⟩

theorem filter_for_path_mem :
    ∀ (edges : List BorrowsEdge) (path : List Nat) (res : List BorrowsEdge),
      UnblockGraph.filter_for_path edges path = some res →
      ∀ e, e ∈ res ↔ e ∈ edges ∧ e.valid_for_path path = some true := by
  intro edges
  induction edges with
  | nil =>
    intro path res h e
    cases h
    simp
  | cons e0 rest ih =>
    intro path res h e
    rcases hv : e0.valid_for_path path with _ | b
    · simp only [UnblockGraph.filter_for_path, hv] at h
      exact Option.noConfusion h
    · rcases hrec : UnblockGraph.filter_for_path rest path with _ | tail
      · simp only [UnblockGraph.filter_for_path, hv, hrec] at h
        exact Option.noConfusion h
      · simp only [UnblockGraph.filter_for_path, hv, hrec] at h
        obtain rfl := Option.some.inj h
        cases b with
        | false =>
          simp only [Bool.false_eq_true, if_false]
          rw [ih path tail hrec e]
          constructor
          · rintro ⟨he, hvp⟩
            exact ⟨List.mem_cons_of_mem _ he, hvp⟩
          · rintro ⟨he, hvp⟩
            rcases List.mem_cons.mp he with rfl | he'
            · rw [hv] at hvp
              cases hvp
            · exact ⟨he', hvp⟩
        | true =>
          simp only [if_true]
          constructor
          · intro hres
            rcases List.mem_cons.mp hres with rfl | he'
            · exact ⟨List.mem_cons_self _ _, hv⟩
            · have := (ih path tail hrec e).mp he'
              exact ⟨List.mem_cons_of_mem _ this.1, this.2⟩
          · rintro ⟨he, hvp⟩
            rcases List.mem_cons.mp he with rfl | he'
            · exact List.mem_cons_self _ _
            · exact List.mem_cons_of_mem _ ((ih path tail hrec e).mpr ⟨he', hvp⟩)

/-- C4 (amended): `filter_for_path` retains exactly the edges whose path
condition satisfies `valid_for_path` on the given concrete path; however, on
the example graph with conditions `{b0→b1}`, `{b1→b2}` and `{b0→b3}` and the
concrete path `[b0, b1, b2]`, it retains only the edge with `{b1→b2}` and
drops both `{b0→b1}` (whose suffix check fails because the path continues
past `b1` with an edge the condition does not record) and `{b0→b3}`. -/
theorem C4_filter_for_path :
    (∀ (edges : List BorrowsEdge) (path : List Nat) (res : List BorrowsEdge),
        UnblockGraph.filter_for_path edges path = some res →
        ∀ e, e ∈ res ↔ e ∈ edges ∧ e.valid_for_path path = some true)
    ∧ UnblockGraph.filter_for_path
        [pathEdge ⟨0, 1⟩, pathEdge ⟨1, 2⟩, pathEdge ⟨0, 3⟩] [0, 1, 2]
      = some [pathEdge ⟨1, 2⟩] :=
  ⟨filter_for_path_mem, by decide⟩

/-- Counterexample for C4: on the example graph and path `[b0, b1, b2]`, the
edge with condition `{b0→b1}` is dropped (its `valid_for_path` is `false`),
contrary to the claim that it is retained. -/
theorem C4_counterexample :
    (pathEdge ⟨0, 1⟩).valid_for_path [0, 1, 2] = some false
    ∧ UnblockGraph.filter_for_path
        [pathEdge ⟨0, 1⟩, pathEdge ⟨1, 2⟩, pathEdge ⟨0, 3⟩] [0, 1, 2]
      = some [pathEdge ⟨1, 2⟩]
    ∧ pathEdge ⟨0, 1⟩ ∉ [pathEdge ⟨1, 2⟩] := by
  decide

/-- Witness for C4 at the example graph, path and retained edge. -/
theorem C4_witness :
    pathEdge ⟨1, 2⟩ ∈ [pathEdge ⟨1, 2⟩]
      ↔ pathEdge ⟨1, 2⟩ ∈ [pathEdge ⟨0, 1⟩, pathEdge ⟨1, 2⟩, pathEdge ⟨0, 3⟩]
        ∧ (pathEdge ⟨1, 2⟩).valid_for_path [0, 1, 2] = some true :=
  C4_filter_for_path.1 [pathEdge ⟨0, 1⟩, pathEdge ⟨1, 2⟩, pathEdge ⟨0, 3⟩] [0, 1, 2]
    [pathEdge ⟨1, 2⟩] (by decide) (pathEdge ⟨1, 2⟩)

/-- Modelled from the spec: `Conditioned<T>` of the missing borrows_graph
module — a value paired with the path conditions under which it holds. -/
structure Conditioned (T : Type) where
  value : T
  conditions : PathConditions
deriving DecidableEq

/-- Conversion of a conditioned reborrow into a borrows edge (the `.into()`
of unblock_graph.rs). -/
def Conditioned.intoEdge (c : Conditioned Reborrow) : BorrowsEdge :=
  ⟨c.conditions, .Reborrow c.value⟩

/-- Modelled from the spec: the blocking-relation oracle (`BorrowsState` of
the missing borrows_state module), a consistent read-only snapshot queried
during one build call: the edges blocking a location, the reborrows blocking
a strict prefix of a concrete current place, and the reborrows reserved at a
program location. -/
structure BorrowsState where
  edges_blocking : MaybeRemotePlace → List BorrowsEdge
  reborrows_blocking_prefix_of : Nat → List (Conditioned Reborrow)
  reborrow_edges_reserved_at : Nat → List (Conditioned Reborrow)

/-- UnblockHistoryAction from unblock_graph.rs. -/
inductive UnblockHistoryAction where
  | UnblockPlace (p : MaybeRemotePlace)
  | KillReborrow (r : Reborrow)
deriving DecidableEq

/-- Failure modes of the embedded graph builder: the cyclic-dependency panic
(`report_error`), or exhaustion of the explicit fuel that stands in for the
unbounded Rust recursion. -/
inductive UnblockErr where
  | CyclicDependency
  | OutOfFuel
deriving DecidableEq

/-- UnblockGraph::add_dependency: `HashSet::insert` on the accumulated edge
set, embedded as membership-guarded append. -/
def add_dependency (g : List BorrowsEdge) (e : BorrowsEdge) : List BorrowsEdge :=
  if e ∈ g then g else g ++ [e]

mutual

/-- UnblockGraph::unblock_place_internal: record the place in the history
(revisit = fatal cyclic-dependency failure), walk the edges the oracle
reports as blocking it, and finally, for a current place, kill every reborrow
blocking a strict prefix of it — through `kill_reborrow`, i.e. with a FRESH
history (unblock_graph.rs line 273). -/
def unblock_place_internal (fuel : Nat) (g : List BorrowsEdge)
    (place : MaybeRemotePlace) (borrows : BorrowsState)
    (history : List UnblockHistoryAction) :
    Except UnblockErr (List BorrowsEdge) :=
  match fuel with
  | 0 => .error .OutOfFuel
  | fuel + 1 =>
    if UnblockHistoryAction.UnblockPlace place ∈ history then .error .CyclicDependency
    else
      match process_edges fuel g (borrows.edges_blocking place) borrows
          (history ++ [UnblockHistoryAction.UnblockPlace place]) with
      | .error err => .error err
      | .ok g1 =>
        match place with
        | .Local (.Current p) =>
          process_prefix_reborrows fuel g1 (borrows.reborrows_blocking_prefix_of p) borrows
        | _ => .ok g1
termination_by (fuel, 0, 0)

/-- Loop of unblock_place_internal over the edges blocking the place. -/
def process_edges (fuel : Nat) (g : List BorrowsEdge) (l : List BorrowsEdge)
    (borrows : BorrowsState) (history : List UnblockHistoryAction) :
    Except UnblockErr (List BorrowsEdge) :=
  match l with
  | [] => .ok g
  | e :: rest =>
    match process_one_edge fuel g e borrows history with
    | .error err => .error err
    | .ok g1 => process_edges fuel g1 rest borrows history
termination_by (fuel, 3, l.length)

/-- Body of the edge loop of unblock_place_internal, dispatching on the edge
kind: a reborrow is killed (with the inherited history); a structural
expansion is recorded and then every constituent sub-place resolved; an
abstraction resolves every blocker place and is then recorded; a
region-projection-membership edge is a no-op (TODO in the source). -/
def process_one_edge (fuel : Nat) (g : List BorrowsEdge) (e : BorrowsEdge)
    (borrows : BorrowsState) (history : List UnblockHistoryAction) :
    Except UnblockErr (List BorrowsEdge) :=
  match e.kind with
  | .Reborrow r => kill_reborrow_internal fuel g ⟨r, e.conditions⟩ borrows history
  | .DerefExpansion d =>
    unblock_places fuel (add_dependency g e) d.expansion borrows history
  | .Abstraction a =>
    match unblock_places fuel g a.blocker_places borrows history with
    | .error err => .error err
    | .ok g1 => .ok (add_dependency g1 e)
  | .RegionProjectionMember _ => .ok g
termination_by (fuel, 2, 0)

/-- Loop over a list of (maybe old) places, unblocking each in turn (the
`.into()` conversion to a remote place is `MaybeRemotePlace.Local`). -/
def unblock_places (fuel : Nat) (g : List BorrowsEdge) (l : List MaybeOldPlace)
    (borrows : BorrowsState) (history : List UnblockHistoryAction) :
    Except UnblockErr (List BorrowsEdge) :=
  match l with
  | [] => .ok g
  | p :: rest =>
    match unblock_place_internal fuel g (.Local p) borrows history with
    | .error err => .error err
    | .ok g1 => unblock_places fuel g1 rest borrows history
termination_by (fuel, 1, l.length)

/-- Loop of unblock_place_internal over the reborrows blocking a prefix of
the current place; each is killed through `kill_reborrow`, which restarts
with a fresh history. -/
def process_prefix_reborrows (fuel : Nat) (g : List BorrowsEdge)
    (l : List (Conditioned Reborrow)) (borrows : BorrowsState) :
    Except UnblockErr (List BorrowsEdge) :=
  match l with
  | [] => .ok g
  | rb :: rest =>
    match kill_reborrow fuel g rb borrows with
    | .error err => .error err
    | .ok g1 => process_prefix_reborrows fuel g1 rest borrows
termination_by (fuel, 3, l.length)

/-- UnblockGraph::kill_reborrow: kill a reborrow starting from a fresh
(empty) history. -/
def kill_reborrow (fuel : Nat) (g : List BorrowsEdge) (rb : Conditioned Reborrow)
    (borrows : BorrowsState) : Except UnblockErr (List BorrowsEdge) :=
  kill_reborrow_internal fuel g rb borrows []
termination_by (fuel, 2, 0)

/-- UnblockGraph::kill_reborrow_internal: record the reborrow in the history
(revisit = fatal cyclic-dependency failure), resolve its assigned place, then
record the reborrow edge as a dependency. -/
def kill_reborrow_internal (fuel : Nat) (g : List BorrowsEdge)
    (rb : Conditioned Reborrow) (borrows : BorrowsState)
    (history : List UnblockHistoryAction) :
    Except UnblockErr (List BorrowsEdge) :=
  match fuel with
  | 0 => .error .OutOfFuel
  | fuel + 1 =>
    if UnblockHistoryAction.KillReborrow rb.value ∈ history then .error .CyclicDependency
    else
      match unblock_place_internal fuel g (.Local rb.value.assigned_place) borrows
          (history ++ [UnblockHistoryAction.KillReborrow rb.value]) with
      | .error err => .error err
      | .ok g1 => .ok (add_dependency g1 rb.intoEdge)
termination_by (fuel, 1, 0)

end

/-- UnblockGraph::unblock_place: start the recursive walk with a fresh
history. -/
def unblock_place (fuel : Nat) (g : List BorrowsEdge) (place : MaybeRemotePlace)
    (borrows : BorrowsState) : Except UnblockErr (List BorrowsEdge) :=
  unblock_place_internal fuel g place borrows []

/-- Loop of UnblockGraph::kill_reborrows_reserved_at over the reborrow edges
reserved at the location: an edge whose blocked place is a historical
snapshot is skipped (`!edge.value.blocked_place.is_old()`); otherwise the
assigned place is unblocked (fresh history) and the edge recorded. -/
def kill_reborrows_reserved_at_go (fuel : Nat) (g : List BorrowsEdge)
    (l : List (Conditioned Reborrow)) (borrows : BorrowsState) :
    Except UnblockErr (List BorrowsEdge) :=
  match l with
  | [] => .ok g
  | rb :: rest =>
    if rb.value.blocked_place.is_old then kill_reborrows_reserved_at_go fuel g rest borrows
    else
      match unblock_place fuel g (.Local rb.value.assigned_place) borrows with
      | .error err => .error err
      | .ok g1 =>
        kill_reborrows_reserved_at_go fuel (add_dependency g1 rb.intoEdge) rest borrows

/-- UnblockGraph::kill_reborrows_reserved_at. -/
def kill_reborrows_reserved_at (fuel : Nat) (g : List BorrowsEdge) (location : Nat)
    (borrows : BorrowsState) : Except UnblockErr (List BorrowsEdge) :=
  kill_reborrows_reserved_at_go fuel g (borrows.reborrow_edges_reserved_at location) borrows

/-- The self-blocking reborrow of the acyclicity counterexample: it blocks a
prefix of place 1 while its assigned place is place 1 itself. -/
def cycReborrow : Reborrow :=
  { blocked_place := .Local (.Current 1), assigned_place := .Current 1,
    mutability := true, reserve_location := 0 }

/-- Modelled from the spec: a hand-constructed blocking oracle reporting that
`cycReborrow` blocks a (strict prefix of) place 1 — a location that blocks
itself transitively through the prefix-reborrow query. -/
def cycState : BorrowsState where
  edges_blocking := fun _ => []
  reborrows_blocking_prefix_of := fun p =>
    if p = 1 then [⟨cycReborrow, .AtBlock 0⟩] else []
  reborrow_edges_reserved_at := fun _ => []

theorem C3aux : ∀ (fuel : Nat) (g : List BorrowsEdge)
    (h : List UnblockHistoryAction),
    UnblockHistoryAction.UnblockPlace (.Local (.Current 1)) ∉ h →
    unblock_place_internal fuel g (.Local (.Current 1)) cycState h
      = .error .OutOfFuel := by
  intro fuel
  induction fuel using Nat.strong_induction_on with
  | _ fuel IH =>
    intro g h hmem
    cases fuel with
    | zero => rw [unblock_place_internal]
    | succ n =>
      have hblocking : cycState.edges_blocking (.Local (.Current 1)) = [] := rfl
      have hprefix : cycState.reborrows_blocking_prefix_of 1
          = [⟨cycReborrow, .AtBlock 0⟩] := rfl
      have hassigned : cycReborrow.assigned_place = .Current 1 := rfl
      cases n with
      | zero =>
        simp [unblock_place_internal, process_edges, process_prefix_reborrows,
          kill_reborrow, kill_reborrow_internal, hblocking, hprefix, hmem]
      | succ m =>
        have hupi : unblock_place_internal m g (.Local (.Current 1)) cycState
            [UnblockHistoryAction.KillReborrow cycReborrow] = .error .OutOfFuel :=
          IH m (by omega) g _ (by simp)
        simp [unblock_place_internal, process_edges, process_prefix_reborrows,
          kill_reborrow, kill_reborrow_internal, hblocking, hprefix, hassigned,
          hmem, hupi]

/-- C3 (evaluation at the failing input): fed the hand-constructed oracle in
which `cycReborrow` transitively blocks itself through the prefix-reborrow
query, the builder neither terminates nor raises the cyclic-dependency
failure: for EVERY fuel bound the run merely exhausts the fuel.  The
per-traversal history does not reject the repeated visits because
`kill_reborrow` (unblock_graph.rs line 273, reached from the prefix-reborrow
loop of `unblock_place_internal`) restarts each kill with a fresh history. -/
theorem C3_builder_diverges (fuel : Nat) (g : List BorrowsEdge) :
    unblock_place fuel g (.Local (.Current 1)) cycState = .error .OutOfFuel :=
  C3aux fuel g [] (List.not_mem_nil _)

theorem mem_add_dependency_mono (g : List BorrowsEdge) (e x : BorrowsEdge)
    (h : x ∈ g) : x ∈ add_dependency g e := by
  unfold add_dependency
  by_cases he : e ∈ g
  · rwa [if_pos he]
  · rw [if_neg he]
    exact List.mem_append_left _ h

theorem mem_add_dependency_self (g : List BorrowsEdge) (e : BorrowsEdge) :
    e ∈ add_dependency g e := by
  unfold add_dependency
  by_cases he : e ∈ g
  · rwa [if_pos he]
  · rw [if_neg he]
    exact List.mem_append_right _ (List.mem_singleton.mpr rfl)

/-- Monotonicity of the graph builder: every traversal function only ever
inserts edges into the accumulated unblock graph, so a successful run returns
a superset of the edges it started from. -/
theorem builder_mono : ∀ (fuel : Nat),
    (∀ (g : List BorrowsEdge) (place : MaybeRemotePlace) (borrows : BorrowsState)
        (h : List UnblockHistoryAction) (g' : List BorrowsEdge),
      unblock_place_internal fuel g place borrows h = .ok g' → ∀ e ∈ g, e ∈ g')
    ∧ (∀ g l borrows h g',
      process_edges fuel g l borrows h = .ok g' → ∀ e ∈ g, e ∈ g')
    ∧ (∀ g x borrows h g',
      process_one_edge fuel g x borrows h = .ok g' → ∀ e ∈ g, e ∈ g')
    ∧ (∀ g l borrows h g',
      unblock_places fuel g l borrows h = .ok g' → ∀ e ∈ g, e ∈ g')
    ∧ (∀ g l borrows g',
      process_prefix_reborrows fuel g l borrows = .ok g' → ∀ e ∈ g, e ∈ g')
    ∧ (∀ g rb borrows g',
      kill_reborrow fuel g rb borrows = .ok g' → ∀ e ∈ g, e ∈ g')
    ∧ (∀ g rb borrows h g',
      kill_reborrow_internal fuel g rb borrows h = .ok g' → ∀ e ∈ g, e ∈ g') := by
  intro fuel
  induction fuel using Nat.strong_induction_on with
  | _ n IH =>
    have hkri : ∀ g rb borrows h g',
        kill_reborrow_internal n g rb borrows h = .ok g' → ∀ e ∈ g, e ∈ g' := by
      intro g rb borrows h g' hok e he
      cases n with
      | zero => rw [kill_reborrow_internal] at hok; cases hok
      | succ m =>
        rw [kill_reborrow_internal] at hok
        by_cases hm : UnblockHistoryAction.KillReborrow rb.value ∈ h
        · rw [if_pos hm] at hok; cases hok
        · rw [if_neg hm] at hok
          rcases hx : unblock_place_internal m g (.Local rb.value.assigned_place) borrows
              (h ++ [UnblockHistoryAction.KillReborrow rb.value]) with err | g1
          · simp [hx] at hok
          · simp only [hx] at hok
            have h1 : e ∈ g1 := (IH m (by omega)).1 g _ borrows _ g1 hx e he
            obtain rfl := Except.ok.inj hok
            exact mem_add_dependency_mono g1 _ e h1
    have hupi : ∀ g place borrows h g',
        unblock_place_internal n g place borrows h = .ok g' → ∀ e ∈ g, e ∈ g' := by
      intro g place borrows h g' hok e he
      cases n with
      | zero => rw [unblock_place_internal] at hok; cases hok
      | succ m =>
        rw [unblock_place_internal] at hok
        by_cases hm : UnblockHistoryAction.UnblockPlace place ∈ h
        · rw [if_pos hm] at hok; cases hok
        · rw [if_neg hm] at hok
          rcases hx : process_edges m g (borrows.edges_blocking place) borrows
              (h ++ [UnblockHistoryAction.UnblockPlace place]) with err | g1
          · simp [hx] at hok
          · have h1 : e ∈ g1 := (IH m (by omega)).2.1 g _ borrows _ g1 hx e he
            rcases place with mop | rn
            · rcases mop with p | snap
              · simp only [hx] at hok
                exact (IH m (by omega)).2.2.2.2.1 g1 _ borrows g' hok e h1
              · simp only [hx] at hok
                obtain rfl := Except.ok.inj hok
                exact h1
            · simp only [hx] at hok
              obtain rfl := Except.ok.inj hok
              exact h1
    have hups : ∀ (l : List MaybeOldPlace) g borrows h g',
        unblock_places n g l borrows h = .ok g' → ∀ e ∈ g, e ∈ g' := by
      intro l
      induction l with
      | nil =>
        intro g borrows h g' hok e he
        rw [unblock_places] at hok
        obtain rfl := Except.ok.inj hok
        exact he
      | cons p rest ihl =>
        intro g borrows h g' hok e he
        rw [unblock_places] at hok
        rcases hx : unblock_place_internal n g (.Local p) borrows h with err | g1
        · simp [hx] at hok
        · simp only [hx] at hok
          exact ihl g1 borrows h g' hok e (hupi g _ borrows h g1 hx e he)
    have hpoe : ∀ g x borrows h g',
        process_one_edge n g x borrows h = .ok g' → ∀ e ∈ g, e ∈ g' := by
      intro g x borrows h g' hok e he
      obtain ⟨cx, kx⟩ := x
      cases kx with
      | Reborrow r =>
        rw [process_one_edge] at hok
        exact hkri g _ borrows h g' hok e he
      | DerefExpansion d =>
        rw [process_one_edge] at hok
        exact hups d.expansion _ borrows h g' hok e
          (mem_add_dependency_mono g _ e he)
      | Abstraction a =>
        rw [process_one_edge] at hok
        rcases hx : unblock_places n g a.blocker_places borrows h with err | g1
        · simp [hx] at hok
        · simp only [hx] at hok
          obtain rfl := Except.ok.inj hok
          exact mem_add_dependency_mono g1 _ e (hups a.blocker_places g borrows h g1 hx e he)
      | RegionProjectionMember m =>
        rw [process_one_edge] at hok
        obtain rfl := Except.ok.inj hok
        exact he
    have hpe : ∀ (l : List BorrowsEdge) g borrows h g',
        process_edges n g l borrows h = .ok g' → ∀ e ∈ g, e ∈ g' := by
      intro l
      induction l with
      | nil =>
        intro g borrows h g' hok e he
        rw [process_edges] at hok
        obtain rfl := Except.ok.inj hok
        exact he
      | cons x rest ihl =>
        intro g borrows h g' hok e he
        rw [process_edges] at hok
        rcases hx : process_one_edge n g x borrows h with err | g1
        · simp [hx] at hok
        · simp only [hx] at hok
          exact ihl g1 borrows h g' hok e (hpoe g x borrows h g1 hx e he)
    have hkr : ∀ g rb borrows g',
        kill_reborrow n g rb borrows = .ok g' → ∀ e ∈ g, e ∈ g' := by
      intro g rb borrows g' hok e he
      rw [kill_reborrow] at hok
      exact hkri g rb borrows [] g' hok e he
    have hppr : ∀ (l : List (Conditioned Reborrow)) g borrows g',
        process_prefix_reborrows n g l borrows = .ok g' → ∀ e ∈ g, e ∈ g' := by
      intro l
      induction l with
      | nil =>
        intro g borrows g' hok e he
        rw [process_prefix_reborrows] at hok
        obtain rfl := Except.ok.inj hok
        exact he
      | cons rb rest ihl =>
        intro g borrows g' hok e he
        rw [process_prefix_reborrows] at hok
        rcases hx : kill_reborrow n g rb borrows with err | g1
        · simp [hx] at hok
        · simp only [hx] at hok
          exact ihl g1 borrows g' hok e (hkr g rb borrows g1 hx e he)
    exact ⟨hupi, fun g l => hpe l g, hpoe, fun g l => hups l g,
      fun g l => hppr l g, hkr, hkri⟩

theorem krra_go_mono : ∀ (l : List (Conditioned Reborrow)) (fuel : Nat)
    (g : List BorrowsEdge) (borrows : BorrowsState) (g' : List BorrowsEdge),
    kill_reborrows_reserved_at_go fuel g l borrows = .ok g' → ∀ e ∈ g, e ∈ g' := by
  intro l
  induction l with
  | nil =>
    intro fuel g borrows g' hok e he
    obtain rfl := Except.ok.inj hok
    exact he
  | cons rb rest ihl =>
    intro fuel g borrows g' hok e he
    rw [kill_reborrows_reserved_at_go] at hok
    by_cases hold : rb.value.blocked_place.is_old
    · rw [if_pos hold] at hok
      exact ihl fuel g borrows g' hok e he
    · rw [if_neg hold] at hok
      rcases hx : unblock_place fuel g (.Local rb.value.assigned_place) borrows
          with err | g1
      · simp [hx] at hok
      · simp only [hx] at hok
        have h1 : e ∈ g1 := (builder_mono fuel).1 g _ borrows [] g1 hx e he
        exact ihl fuel _ borrows g' hok e (mem_add_dependency_mono g1 _ e h1)

theorem krra_go_records : ∀ (l : List (Conditioned Reborrow)) (fuel : Nat)
    (g : List BorrowsEdge) (borrows : BorrowsState) (g' : List BorrowsEdge),
    kill_reborrows_reserved_at_go fuel g l borrows = .ok g' →
    ∀ rb ∈ l, rb.value.blocked_place.is_old = false → rb.intoEdge ∈ g' := by
  intro l
  induction l with
  | nil =>
    intro fuel g borrows g' _ rb hrb
    cases hrb
  | cons rb0 rest ihl =>
    intro fuel g borrows g' hok rb hrb hnold
    rw [kill_reborrows_reserved_at_go] at hok
    rcases List.mem_cons.mp hrb with rfl | hrb'
    · rw [if_neg (by rw [hnold]; exact Bool.false_ne_true)] at hok
      rcases hx : unblock_place fuel g (.Local rb.value.assigned_place) borrows
          with err | g1
      · simp [hx] at hok
      · simp only [hx] at hok
        exact krra_go_mono rest fuel _ borrows g' hok rb.intoEdge
          (mem_add_dependency_self g1 rb.intoEdge)
    · by_cases hold : rb0.value.blocked_place.is_old
      · rw [if_pos hold] at hok
        exact ihl fuel g borrows g' hok rb hrb' hnold
      · rw [if_neg hold] at hok
        rcases hx : unblock_place fuel g (.Local rb0.value.assigned_place) borrows
            with err | g1
        · simp [hx] at hok
        · simp only [hx] at hok
          exact ihl fuel _ borrows g' hok rb hrb' hnold

/-- C9 (amended): a successful run of the companion entry point
`kill_reborrows_reserved_at` records every reborrow edge whose reservation
point is the given location AND whose blocked place is not a historical
snapshot; reserved edges whose blocked place is old are skipped (the
`!edge.value.blocked_place.is_old()` filter). -/
theorem C9_kill_reborrows_records (fuel loc : Nat) (g g' : List BorrowsEdge)
    (borrows : BorrowsState)
    (hok : kill_reborrows_reserved_at fuel g loc borrows = .ok g') :
    ∀ rb ∈ borrows.reborrow_edges_reserved_at loc,
      rb.value.blocked_place.is_old = false → rb.intoEdge ∈ g' :=
  krra_go_records (borrows.reborrow_edges_reserved_at loc) fuel g borrows g' hok

/-- A reborrow whose blocked place is a historical snapshot, reserved at
location 0. -/
def oldReborrow : Reborrow :=
  { blocked_place := .Local (.OldPlace 7), assigned_place := .Current 2,
    mutability := true, reserve_location := 0 }

/-- Modelled from the spec: a blocking oracle whose only reserved-at-0
reborrow edge has an old (snapshot) blocked place. -/
def oldState : BorrowsState where
  edges_blocking := fun _ => []
  reborrows_blocking_prefix_of := fun _ => []
  reborrow_edges_reserved_at := fun l =>
    if l = 0 then [⟨oldReborrow, .AtBlock 0⟩] else []

/-- Counterexample for C9: the state reports one reborrow edge reserved at
location 0, yet `kill_reborrows_reserved_at` returns with the graph still
empty — the edge is neither resolved nor recorded, because its blocked place
is a historical snapshot. -/
theorem C9_counterexample :
    kill_reborrows_reserved_at 5 [] 0 oldState = .ok []
    ∧ (⟨oldReborrow, .AtBlock 0⟩ : Conditioned Reborrow)
        ∈ oldState.reborrow_edges_reserved_at 0
    ∧ (⟨oldReborrow, .AtBlock 0⟩ : Conditioned Reborrow).intoEdge
        ∉ ([] : List BorrowsEdge) := by
  refine ⟨?_, by decide, by decide⟩
  rw [kill_reborrows_reserved_at]
  show kill_reborrows_reserved_at_go 5 [] [⟨oldReborrow, .AtBlock 0⟩] oldState = .ok []
  rw [kill_reborrows_reserved_at_go]
  rfl

/-- A reborrow with a current (non-snapshot) blocked place, reserved at
location 0. -/
def curReborrow : Reborrow :=
  { blocked_place := .Local (.Current 1), assigned_place := .Current 2,
    mutability := true, reserve_location := 0 }

/-- Modelled from the spec: a blocking oracle whose only reserved-at-0
reborrow edge has a current blocked place and whose other queries are
empty. -/
def curState : BorrowsState where
  edges_blocking := fun _ => []
  reborrows_blocking_prefix_of := fun _ => []
  reborrow_edges_reserved_at := fun l =>
    if l = 0 then [⟨curReborrow, .AtBlock 0⟩] else []

/-- Witness for C9: on `curState` the run succeeds and the reserved edge is
recorded in the resulting graph. -/
theorem C9_witness :
    (⟨curReborrow, .AtBlock 0⟩ : Conditioned Reborrow).intoEdge
      ∈ [(⟨curReborrow, .AtBlock 0⟩ : Conditioned Reborrow).intoEdge] :=
  C9_kill_reborrows_records 3 0 []
    [(⟨curReborrow, .AtBlock 0⟩ : Conditioned Reborrow).intoEdge] curState
    (by
      rw [kill_reborrows_reserved_at]
      have hres : curState.reborrow_edges_reserved_at 0
          = [⟨curReborrow, .AtBlock 0⟩] := rfl
      rw [hres]
      have hupi : unblock_place 3 [] (.Local (.Current 2)) curState = .ok [] := by
        rw [unblock_place, unblock_place_internal]
        rw [if_neg (List.not_mem_nil _)]
        have hpe : process_edges 2 [] (curState.edges_blocking (.Local (.Current 2)))
            curState ([] ++ [UnblockHistoryAction.UnblockPlace (.Local (.Current 2))])
            = .ok [] := by
          show process_edges 2 [] [] curState _ = .ok []
          rw [process_edges]
        rw [hpe]
        show process_prefix_reborrows 2 [] (curState.reborrows_blocking_prefix_of 2)
            curState = .ok []
        have hpref : curState.reborrows_blocking_prefix_of 2 = [] := rfl
        rw [hpref, process_prefix_reborrows]
      rw [kill_reborrows_reserved_at_go]
      rw [if_neg (by decide)]
      have hassigned : curReborrow.assigned_place = .Current 2 := rfl
      simp only [hassigned, hupi]
      rw [kill_reborrows_reserved_at_go]
      rfl)
    ⟨curReborrow, .AtBlock 0⟩ (by decide) rfl
